import Mathlib

/-!
Shallow embedding of the "ami" crate's bounding-cube (src/bcube.rs) and
4×4-matrix (src/mat4.rs) code, together with the minimal parts of the
crate's value types (Vec3, BBox, Plane, Frustum) that those files use.

Floating-point scalars are modelled as exact numbers: `ℚ` for the
bounding-cube component (only ring operations and comparisons occur
there, so everything stays decidable) and `ℝ` for the matrix/plane
component (which uses sqrt, arccos and cos).
-/

/-- Vector of three scalar coordinates (the crate's `Vec3`, generalised
over the scalar type so it can be used both at `ℚ` and at `ℝ`). -/
structure Vec3 (α : Type*) where
  x : α
  y : α
  z : α
  deriving DecidableEq

/-- Modelled from the spec: `Vec3::zero()` of the crate's value library
(src/vec3.rs is not in scope), the all-zero vector. -/
def Vec3.zero : Vec3 ℝ := ⟨0, 0, 0⟩

/-- Modelled from the spec: the dot product of the crate's value library
(src/vec3.rs is not in scope). -/
def Vec3.dot (a b : Vec3 ℝ) : ℝ := a.x * b.x + a.y * b.y + a.z * b.z

/-- Modelled from the spec: `Vec3::mag()` of the crate's value library
(src/vec3.rs is not in scope), the euclidean magnitude. -/
noncomputable def Vec3.mag (a : Vec3 ℝ) : ℝ :=
  Real.sqrt (a.x * a.x + a.y * a.y + a.z * a.z)

/-- Modelled from the spec: `Vec3::angle(other)` of the crate's value
library (src/vec3.rs is not in scope), the angle between two vectors,
computed as the arccosine of the normalised dot product. -/
noncomputable def Vec3.angle (a b : Vec3 ℝ) : ℝ :=
  Real.arccos (Vec3.dot a b / (a.mag * b.mag))

/-- Axis-aligned box given by a minimum and a maximum corner (the
crate's `BBox`; src/bbox.rs itself is not in scope, only the fields the
spec's data model describes). -/
structure BBox where
  min : Vec3 ℚ
  max : Vec3 ℚ
  deriving DecidableEq

/-- Bounding cube: a center and a scalar half-length (src/bcube.rs,
`struct BCube`). -/
structure BCube where
  center : Vec3 ℚ
  half_len : ℚ
  deriving DecidableEq

/-- Modelled from the spec: `BBox::bcube_sides(bcube)` (src/bbox.rs is
not in scope).  Per axis, a boolean "grows toward max" flag obtained by
comparing the box's span against the cube's min/max planes on that axis:
the flag is true exactly when the span's midpoint lies strictly closer
to the max plane than to the min plane (equivalently, strictly beyond
the cube's center), so an exactly centered box tie-breaks to false (the
minimum side), as the spec requires. -/
def BBox.bcube_sides (p : BBox) (c : BCube) : Bool × Bool × Bool :=
  (decide (c.center.x < (p.min.x + p.max.x) / 2),
   decide (c.center.y < (p.min.y + p.max.y) / 2),
   decide (c.center.z < (p.min.z + p.max.z) / 2))

/-- List of the eight corners of a box (every combination of min/max
coordinate per axis). -/
def BBox.corners (b : BBox) : List (Vec3 ℚ) :=
  [⟨b.min.x, b.min.y, b.min.z⟩, ⟨b.min.x, b.min.y, b.max.z⟩,
   ⟨b.min.x, b.max.y, b.min.z⟩, ⟨b.min.x, b.max.y, b.max.z⟩,
   ⟨b.max.x, b.min.y, b.min.z⟩, ⟨b.max.x, b.min.y, b.max.z⟩,
   ⟨b.max.x, b.max.y, b.min.z⟩, ⟨b.max.x, b.max.y, b.max.z⟩]

/-- Empty-sentinel cube: center at the origin, half-length -1
(src/bcube.rs, `BCube::empty`). -/
def BCube.empty : BCube := ⟨⟨0, 0, 0⟩, -1⟩

/-- Cube of half-length 1 at a point (src/bcube.rs, `BCube::new`). -/
def BCube.new (p : Vec3 ℚ) : BCube := ⟨p, 1⟩

/-- Helper of `extend` (src/bcube.rs, `BCube::move_center`): select the
new center among the eight corners of the current cube according to the
per-axis flags from `bcube_sides`.  `min`/`max` are the componentwise
`center - half_len` / `center + half_len` vectors of the source. -/
def BCube.move_center (c : BCube) (p : BBox) : Vec3 ℚ :=
  let mn : Vec3 ℚ := ⟨c.center.x - c.half_len, c.center.y - c.half_len,
    c.center.z - c.half_len⟩
  let mx : Vec3 ℚ := ⟨c.center.x + c.half_len, c.center.y + c.half_len,
    c.center.z + c.half_len⟩
  match p.bcube_sides c with
  | (false, false, false) => ⟨mn.x, mn.y, mn.z⟩
  | (false, false, true) => ⟨mn.x, mn.y, mx.z⟩
  | (false, true, false) => ⟨mn.x, mx.y, mn.z⟩
  | (false, true, true) => ⟨mn.x, mx.y, mx.z⟩
  | (true, false, false) => ⟨mx.x, mn.y, mn.z⟩
  | (true, false, true) => ⟨mx.x, mn.y, mx.z⟩
  | (true, true, false) => ⟨mx.x, mx.y, mn.z⟩
  | (true, true, true) => ⟨mx.x, mx.y, mx.z⟩

/-- Extend the cube to accommodate a box (src/bcube.rs, `BCube::extend`,
with the in-place mutation rendered as returning the updated cube):
recenter via `move_center`, then double the half-length. -/
def BCube.extend (c : BCube) (p : BBox) : BCube :=
  ⟨c.move_center p, c.half_len * 2⟩

/-- Containment test (src/bcube.rs, `BCube::contains`): half-open
interval `[center - half_len, center + half_len)` on each axis. -/
def BCube.contains (c : BCube) (p : Vec3 ℚ) : Bool :=
  decide (p.x ≥ c.center.x - c.half_len) &&
  decide (p.x < c.center.x + c.half_len) &&
  decide (p.y ≥ c.center.y - c.half_len) &&
  decide (p.y < c.center.y + c.half_len) &&
  decide (p.z ≥ c.center.z - c.half_len) &&
  decide (p.z < c.center.z + c.half_len)

/-- Containment of a whole box: every one of its eight corners passes
`contains`. -/
def BCube.containsBox (c : BCube) (b : BBox) : Bool :=
  b.corners.all fun q => c.contains q

/-- Extremal pair of corners along a normal (src/bcube.rs,
`BCube::pn_pair_from_normal`): per axis, a non-negative normal component
adds `half_len` to the positive vertex and subtracts it from the
negative one, and conversely; the source returns the tuple
`(nvertex, pvertex)`. -/
def BCube.pn_pair_from_normal (c : BCube) (normal : Vec3 ℚ) :
    Vec3 ℚ × Vec3 ℚ :=
  let pv0 := c.center
  let nv0 := c.center
  let pv1 := if normal.x ≥ 0 then { pv0 with x := pv0.x + c.half_len }
    else { pv0 with x := pv0.x - c.half_len }
  let nv1 := if normal.x ≥ 0 then { nv0 with x := nv0.x - c.half_len }
    else { nv0 with x := nv0.x + c.half_len }
  let pv2 := if normal.y ≥ 0 then { pv1 with y := pv1.y + c.half_len }
    else { pv1 with y := pv1.y - c.half_len }
  let nv2 := if normal.y ≥ 0 then { nv1 with y := nv1.y - c.half_len }
    else { nv1 with y := nv1.y + c.half_len }
  let pv3 := if normal.z ≥ 0 then { pv2 with z := pv2.z + c.half_len }
    else { pv2 with z := pv2.z - c.half_len }
  let nv3 := if normal.z ≥ 0 then { nv2 with z := nv2.z - c.half_len }
    else { nv2 with z := nv2.z + c.half_len }
  (nv3, pv3)

/-- Matrix of 16 scalars (src/mat4.rs, `struct Mat4(pub [f64; 16])`);
field `mi` models array entry `self.0[i]`.  The source's `f64`/`f32`
duality (`to_f32_array` before applying to vectors and planes) collapses
in the exact-real model, where the cast is the identity. -/
structure Mat4 where
  m0 : ℝ
  m1 : ℝ
  m2 : ℝ
  m3 : ℝ
  m4 : ℝ
  m5 : ℝ
  m6 : ℝ
  m7 : ℝ
  m8 : ℝ
  m9 : ℝ
  m10 : ℝ
  m11 : ℝ
  m12 : ℝ
  m13 : ℝ
  m14 : ℝ
  m15 : ℝ

/-- Identity matrix (src/mat4.rs, `IDENTITY`). -/
def Mat4.identity : Mat4 :=
  ⟨1, 0, 0, 0, 0, 1, 0, 0, 0, 0, 1, 0, 0, 0, 0, 1⟩

/-- Matrix product (src/mat4.rs, `impl Mul<Mat4> for Mat4`): row-by-
column 4×4 composition, entry by entry as in the source. -/
def Mat4.mul (a b : Mat4) : Mat4 where
  m0 := a.m0 * b.m0 + a.m1 * b.m4 + a.m2 * b.m8 + a.m3 * b.m12
  m1 := a.m0 * b.m1 + a.m1 * b.m5 + a.m2 * b.m9 + a.m3 * b.m13
  m2 := a.m0 * b.m2 + a.m1 * b.m6 + a.m2 * b.m10 + a.m3 * b.m14
  m3 := a.m0 * b.m3 + a.m1 * b.m7 + a.m2 * b.m11 + a.m3 * b.m15
  m4 := a.m4 * b.m0 + a.m5 * b.m4 + a.m6 * b.m8 + a.m7 * b.m12
  m5 := a.m4 * b.m1 + a.m5 * b.m5 + a.m6 * b.m9 + a.m7 * b.m13
  m6 := a.m4 * b.m2 + a.m5 * b.m6 + a.m6 * b.m10 + a.m7 * b.m14
  m7 := a.m4 * b.m3 + a.m5 * b.m7 + a.m6 * b.m11 + a.m7 * b.m15
  m8 := a.m8 * b.m0 + a.m9 * b.m4 + a.m10 * b.m8 + a.m11 * b.m12
  m9 := a.m8 * b.m1 + a.m9 * b.m5 + a.m10 * b.m9 + a.m11 * b.m13
  m10 := a.m8 * b.m2 + a.m9 * b.m6 + a.m10 * b.m10 + a.m11 * b.m14
  m11 := a.m8 * b.m3 + a.m9 * b.m7 + a.m10 * b.m11 + a.m11 * b.m15
  m12 := a.m12 * b.m0 + a.m13 * b.m4 + a.m14 * b.m8 + a.m15 * b.m12
  m13 := a.m12 * b.m1 + a.m13 * b.m5 + a.m14 * b.m9 + a.m15 * b.m13
  m14 := a.m12 * b.m2 + a.m13 * b.m6 + a.m14 * b.m10 + a.m15 * b.m14
  m15 := a.m12 * b.m3 + a.m13 * b.m7 + a.m14 * b.m11 + a.m15 * b.m15

/-- Multiply by a raw matrix (src/mat4.rs, `Mat4::matrix`). -/
def Mat4.matrix (a b : Mat4) : Mat4 := a.mul b

/-- Multiply by a translation matrix (src/mat4.rs, `Mat4::translate`):
right-multiplies the standard homogeneous translation matrix with the
offsets in entries 12..14. -/
def Mat4.translate (m : Mat4) (x y z : ℝ) : Mat4 :=
  m.matrix ⟨1, 0, 0, 0, 0, 1, 0, 0, 0, 0, 1, 0, x, y, z, 1⟩

/-- Translation vector of a matrix: entries 12..14, as extracted in
`impl Mul<Plane> for Mat4` (src/mat4.rs, `let t = Vec3::new(mat[12],
mat[13], mat[14])`). -/
def Mat4.translation (m : Mat4) : Vec3 ℝ := ⟨m.m12, m.m13, m.m14⟩

/-- Position transform (src/mat4.rs, `impl Mul<Vec3> for Mat4`):
multiply by the linear part and add the translation column (implicit
w = 1, written `mat[12]*1.0` in the source). -/
def Mat4.mulVec3 (m : Mat4) (rhs : Vec3 ℝ) : Vec3 ℝ :=
  ⟨m.m0 * rhs.x + m.m4 * rhs.y + m.m8 * rhs.z + m.m12 * 1,
   m.m1 * rhs.x + m.m5 * rhs.y + m.m9 * rhs.z + m.m13 * 1,
   m.m2 * rhs.x + m.m6 * rhs.y + m.m10 * rhs.z + m.m14 * 1⟩

/-- Modelled from the spec: `Vec3::transform_dir(matrix)` (src/vec3.rs
is not in scope) — transform as a direction, applying only the
rotational/linear 3×3 part of the matrix, no translation. -/
def Vec3.transform_dir (v : Vec3 ℝ) (m : Mat4) : Vec3 ℝ :=
  ⟨m.m0 * v.x + m.m4 * v.y + m.m8 * v.z,
   m.m1 * v.x + m.m5 * v.y + m.m9 * v.z,
   m.m2 * v.x + m.m6 * v.y + m.m10 * v.z⟩

/-- Plane: a facing normal and a signed offset from the origin (the
crate's `Plane`; src/plane.rs is not in scope, fields per the spec's
data model). -/
structure Plane where
  facing : Vec3 ℝ
  offset : ℝ

/-- Frustum: center, radius, two field-of-view angles and two rotation
angles (the crate's `Frustum`; src/frustum.rs is not in scope, fields
per the spec's data model and the field names used in src/mat4.rs). -/
structure Frustum where
  center : Vec3 ℝ
  radius : ℝ
  wfov : ℝ
  hfov : ℝ
  xrot : ℝ
  yrot : ℝ

/-- Closed form of the source's reduction loop
`while a > 2*PI { a -= 2*PI }` (src/mat4.rs, `impl Mul<Plane>`): an
input already ≤ 2π is returned unchanged; otherwise 2π is subtracted
the least number of times that brings the value to ≤ 2π, which is
⌈a/(2π)⌉ - 1 times. -/
noncomputable def reduceFullCircle (a : ℝ) : ℝ :=
  if a ≤ 2 * Real.pi then a
  else a - 2 * Real.pi * ((⌈a / (2 * Real.pi)⌉ : ℤ) - 1)

/-- Quadrant folding of src/mat4.rs, `impl Mul<Plane>`: starting from
`b = 1`, an angle over 90° is folded back into `[0, π/2]`-adjacent form,
negating `b` in the second and third quadrants; returns the adjusted
`(a, b)`. -/
noncomputable def foldQuadrant (a : ℝ) : ℝ × ℝ :=
  if a > Real.pi / 2 then
    if a < Real.pi then (Real.pi - a, -1)
    else if a < 3 * Real.pi / 2 then (a - Real.pi, -1)
    else (2 * Real.pi - a, 1)
  else (a, 1)

/-- Plane transform (src/mat4.rs, `impl Mul<Plane> for Mat4`): the
facing normal is transformed as a direction; with a zero translation
vector the offset is returned unchanged; otherwise the absolute angle
between the transformed normal and the translation vector is reduced
modulo full circles, folded by quadrant, and the offset is shifted by
`cos(a) * |t| * b`, or by nothing when the folded angle is ≥ 90°. -/
noncomputable def Mat4.mulPlane (m : Mat4) (rhs : Plane) : Plane :=
  let facing := rhs.facing.transform_dir m
  let t := m.translation
  if t = Vec3.zero then { facing := facing, offset := rhs.offset }
  else
    let ab := foldQuadrant (reduceFullCircle |facing.angle t|)
    { facing := facing,
      offset := rhs.offset +
        if ab.1 ≥ Real.pi / 2 then 0 else Real.cos ab.1 * t.mag * ab.2 }

/-- Frustum transform (src/mat4.rs, `impl Mul<Frustum> for Mat4`): the
center is transformed as a position; radius, field-of-view angles and
rotation angles are passed through. -/
def Mat4.mulFrustum (m : Mat4) (rhs : Frustum) : Frustum where
  center := m.mulVec3 rhs.center
  radius := rhs.radius
  wfov := rhs.wfov
  hfov := rhs.hfov
  xrot := rhs.xrot
  yrot := rhs.yrot

/-- Unfolding lemma: `move_center` picks, coordinate by coordinate,
`center + half_len` when the corresponding `bcube_sides` flag is true
and `center - half_len` when it is false. -/
lemma move_center_eq (c : BCube) (p : BBox) :
    c.move_center p =
      ⟨cond (p.bcube_sides c).1 (c.center.x + c.half_len)
        (c.center.x - c.half_len),
       cond (p.bcube_sides c).2.1 (c.center.y + c.half_len)
        (c.center.y - c.half_len),
       cond (p.bcube_sides c).2.2 (c.center.z + c.half_len)
        (c.center.z - c.half_len)⟩ := by
  rcases hb : p.bcube_sides c with ⟨fx, fy, fz⟩
  unfold BCube.move_center
  rw [hb]
  cases fx <;> cases fy <;> cases fz <;> rfl

/-- Unfolding lemma: the boolean `contains` test as a proposition. -/
lemma contains_eq_true_iff (c : BCube) (p : Vec3 ℚ) :
    c.contains p = true ↔
      c.center.x - c.half_len ≤ p.x ∧ p.x < c.center.x + c.half_len ∧
      c.center.y - c.half_len ≤ p.y ∧ p.y < c.center.y + c.half_len ∧
      c.center.z - c.half_len ≤ p.z ∧ p.z < c.center.z + c.half_len := by
  simp [BCube.contains, and_assoc, ge_iff_le]

/-- Core preservation lemma: a point inside a non-degenerate cube stays
inside after the cube is extended by any box, whatever corner the
selector picks. -/
lemma extend_keeps_point (c : BCube) (b : BBox) (p : Vec3 ℚ)
    (hh : 0 < c.half_len) (hp : c.contains p = true) :
    (c.extend b).contains p = true := by
  rw [contains_eq_true_iff] at hp ⊢
  obtain ⟨h1, h2, h3, h4, h5, h6⟩ := hp
  simp only [BCube.extend, move_center_eq]
  rcases b.bcube_sides c with ⟨fx, fy, fz⟩
  cases fx <;> cases fy <;> cases fz <;>
    simp only [cond_true, cond_false] <;>
    exact ⟨by linarith, by linarith, by linarith, by linarith, by linarith,
      by linarith⟩

/-- Per-axis growth lemma: a coordinate of a box corner lies inside the
doubled interval around the selector-chosen corner coordinate, provided
the box's extent on the axis is narrower than the cube's side and lies
within two half-lengths of the cube's center. -/
lemma axis_in_new_interval (cx h bmin bmax q : ℚ) (hh : 0 < h)
    (hmm : bmin ≤ bmax) (hw : bmax - bmin < 2 * h)
    (hlo : cx - 2 * h ≤ bmin) (hhi : bmax ≤ cx + 2 * h)
    (hq : q = bmin ∨ q = bmax) :
    cond (decide (cx < (bmin + bmax) / 2)) (cx + h) (cx - h) - h * 2 ≤ q ∧
    q < cond (decide (cx < (bmin + bmax) / 2)) (cx + h) (cx - h) + h * 2 := by
  by_cases hc : cx < (bmin + bmax) / 2
  · rw [decide_eq_true hc]
    rcases hq with rfl | rfl <;>
      exact ⟨by simp only [cond_true]; linarith,
        by simp only [cond_true]; linarith⟩
  · rw [decide_eq_false hc]
    push_neg at hc
    rcases hq with rfl | rfl <;>
      exact ⟨by simp only [cond_false]; linarith,
        by simp only [cond_false]; linarith⟩

/-- Corner containment after one extension, under the per-axis closeness
hypotheses of `axis_in_new_interval`. -/
lemma extend_contains_corner (c : BCube) (b : BBox) (q : Vec3 ℚ)
    (hh : 0 < c.half_len)
    (hmm : b.min.x ≤ b.max.x ∧ b.min.y ≤ b.max.y ∧ b.min.z ≤ b.max.z)
    (hw : b.max.x - b.min.x < 2 * c.half_len ∧
      b.max.y - b.min.y < 2 * c.half_len ∧
      b.max.z - b.min.z < 2 * c.half_len)
    (hlo : c.center.x - 2 * c.half_len ≤ b.min.x ∧
      c.center.y - 2 * c.half_len ≤ b.min.y ∧
      c.center.z - 2 * c.half_len ≤ b.min.z)
    (hhi : b.max.x ≤ c.center.x + 2 * c.half_len ∧
      b.max.y ≤ c.center.y + 2 * c.half_len ∧
      b.max.z ≤ c.center.z + 2 * c.half_len)
    (hqx : q.x = b.min.x ∨ q.x = b.max.x)
    (hqy : q.y = b.min.y ∨ q.y = b.max.y)
    (hqz : q.z = b.min.z ∨ q.z = b.max.z) :
    (c.extend b).contains q = true := by
  rw [contains_eq_true_iff]
  simp only [BCube.extend, move_center_eq, BBox.bcube_sides]
  obtain ⟨lx1, lx2⟩ := axis_in_new_interval c.center.x c.half_len b.min.x
    b.max.x q.x hh hmm.1 hw.1 hlo.1 hhi.1 hqx
  obtain ⟨ly1, ly2⟩ := axis_in_new_interval c.center.y c.half_len b.min.y
    b.max.y q.y hh hmm.2.1 hw.2.1 hlo.2.1 hhi.2.1 hqy
  obtain ⟨lz1, lz2⟩ := axis_in_new_interval c.center.z c.half_len b.min.z
    b.max.z q.z hh hmm.2.2 hw.2.2 hlo.2.2 hhi.2.2 hqz
  exact ⟨lx1, lx2, ly1, ly2, lz1, lz2⟩

/-- Claim C1 (counterexample): a single `extend` call does not contain
the box in general.  The unit cube at the origin extended by the box
from (10,10,10) to (11,11,11) doubles once to half-length 2 around a
corner of the old cube, which cannot reach the box: containment of all
corners fails (the corners are far from the new max boundary, so the
half-open convention is not what excludes them). -/
theorem extend_single_call_misses_far_box :
    (0 : ℚ) < (⟨⟨0, 0, 0⟩, 1⟩ : BCube).half_len ∧
    ((⟨⟨0, 0, 0⟩, 1⟩ : BCube).extend
        ⟨⟨10, 10, 10⟩, ⟨11, 11, 11⟩⟩).containsBox
      ⟨⟨10, 10, 10⟩, ⟨11, 11, 11⟩⟩ = false := by
  constructor
  · norm_num
  · norm_num [BCube.containsBox, BBox.corners, BCube.contains, BCube.extend,
      BCube.move_center, BBox.bcube_sides]

/-- Claim C1 (amended): after a single `extend(B)` the cube contains
every corner of `B` provided `B` is within one doubling's reach: on
each axis the box is narrower than the cube's full side (max - min <
2·half_len) and lies within two half-lengths of the cube's center.  In
general one call is not enough and the caller must extend again. -/
theorem extend_contains_within_reach_box (c : BCube) (b : BBox)
    (hh : 0 < c.half_len)
    (hmm : b.min.x ≤ b.max.x ∧ b.min.y ≤ b.max.y ∧ b.min.z ≤ b.max.z)
    (hw : b.max.x - b.min.x < 2 * c.half_len ∧
      b.max.y - b.min.y < 2 * c.half_len ∧
      b.max.z - b.min.z < 2 * c.half_len)
    (hlo : c.center.x - 2 * c.half_len ≤ b.min.x ∧
      c.center.y - 2 * c.half_len ≤ b.min.y ∧
      c.center.z - 2 * c.half_len ≤ b.min.z)
    (hhi : b.max.x ≤ c.center.x + 2 * c.half_len ∧
      b.max.y ≤ c.center.y + 2 * c.half_len ∧
      b.max.z ≤ c.center.z + 2 * c.half_len) :
    (c.extend b).containsBox b = true := by
  simp only [BCube.containsBox, BBox.corners, List.all_cons, List.all_nil,
    Bool.and_eq_true, and_true]
  refine ⟨?_, ?_, ?_, ?_, ?_, ?_, ?_, ?_⟩ <;>
    exact extend_contains_corner c b _ hh hmm hw hlo hhi (by simp) (by simp)
      (by simp)

/-- Witness for the amended claim C1 at a concrete cube and box. -/
theorem extend_contains_within_reach_box_witness :
    ((⟨⟨0, 0, 0⟩, 1⟩ : BCube).extend
        ⟨⟨0, 0, 0⟩, ⟨3/2, 3/2, 3/2⟩⟩).containsBox
      ⟨⟨0, 0, 0⟩, ⟨3/2, 3/2, 3/2⟩⟩ = true :=
  extend_contains_within_reach_box ⟨⟨0, 0, 0⟩, 1⟩
    ⟨⟨0, 0, 0⟩, ⟨3/2, 3/2, 3/2⟩⟩ (by norm_num) (by norm_num) (by norm_num)
    (by norm_num) (by norm_num)

/-- Claim C2: `extend` sets the new center to one of the eight corners
of the current cube — each coordinate is independently `center +
half_len` or `center - half_len` according to the per-axis selector
booleans from `bcube_sides` — and multiplies `half_len` by exactly 2. -/
theorem extend_center_is_corner_and_doubles (c : BCube) (b : BBox) :
    (c.extend b).center =
      ⟨cond (b.bcube_sides c).1 (c.center.x + c.half_len)
        (c.center.x - c.half_len),
       cond (b.bcube_sides c).2.1 (c.center.y + c.half_len)
        (c.center.y - c.half_len),
       cond (b.bcube_sides c).2.2 (c.center.z + c.half_len)
        (c.center.z - c.half_len)⟩ ∧
    (c.extend b).half_len = 2 * c.half_len :=
  ⟨move_center_eq c b, mul_comm c.half_len 2⟩

/-- Claim C3: `extend` never loses previously enclosed points — for a
cube with positive half-length, any point it contains is still
contained after extending by any box (the old region is one octant of
the doubled cube). -/
theorem extend_preserves_contains (c : BCube) (b : BBox) (p : Vec3 ℚ)
    (hh : 0 < c.half_len) (hp : c.contains p = true) :
    (c.extend b).contains p = true :=
  extend_keeps_point c b p hh hp

/-- Witness for claim C3 at a concrete cube, box and point. -/
theorem extend_preserves_contains_witness :
    ((⟨⟨0, 0, 0⟩, 1⟩ : BCube).extend ⟨⟨5, 5, 5⟩, ⟨6, 6, 6⟩⟩).contains
      ⟨0, 0, 0⟩ = true :=
  extend_preserves_contains ⟨⟨0, 0, 0⟩, 1⟩ ⟨⟨5, 5, 5⟩, ⟨6, 6, 6⟩⟩ ⟨0, 0, 0⟩
    (by norm_num) (by norm_num [BCube.contains])

/-- Claim C4: `contains` returns true iff, on each of the three axes,
the point's coordinate is ≥ center - half_len and strictly <
center + half_len (half-open interval). -/
theorem contains_half_open_iff (c : BCube) (p : Vec3 ℚ) :
    c.contains p = true ↔
      (p.x ≥ c.center.x - c.half_len ∧ p.x < c.center.x + c.half_len ∧
       p.y ≥ c.center.y - c.half_len ∧ p.y < c.center.y + c.half_len ∧
       p.z ≥ c.center.z - c.half_len ∧ p.z < c.center.z + c.half_len) := by
  simp [BCube.contains, and_assoc]

/-- Claim C5 (counterexample): `pn_pair_from_normal` returns the
negative vertex FIRST.  For the cube centered at the origin with
half-length 1 and normal (1,0,0) the result is ((-1,-1,-1), (1,1,1)),
so the first component — the positive vertex, per the claim — has
x = -1, not +1. -/
theorem pn_pair_from_normal_order_swapped :
    (⟨⟨0, 0, 0⟩, 1⟩ : BCube).pn_pair_from_normal ⟨1, 0, 0⟩ =
      (⟨-1, -1, -1⟩, ⟨1, 1, 1⟩) ∧
    ((⟨⟨0, 0, 0⟩, 1⟩ : BCube).pn_pair_from_normal ⟨1, 0, 0⟩).1.x ≠ 1 := by
  norm_num [BCube.pn_pair_from_normal]

/-- Claim C5 (amended): `pn_pair_from_normal` returns the pair
(negative vertex, positive vertex) — in that order — where for each
axis a normal component ≥ 0 puts center + half_len into the positive
vertex and center - half_len into the negative vertex, and conversely
for a negative component; for the origin cube with half-length 1 and
normal (1,0,0) the positive vertex (second component) has x = +1 and
the negative vertex (first component) has x = -1. -/
theorem pn_pair_from_normal_eq_neg_pos (c : BCube) (n : Vec3 ℚ) :
    c.pn_pair_from_normal n =
      (⟨(if n.x ≥ 0 then c.center.x - c.half_len
          else c.center.x + c.half_len),
        (if n.y ≥ 0 then c.center.y - c.half_len
          else c.center.y + c.half_len),
        (if n.z ≥ 0 then c.center.z - c.half_len
          else c.center.z + c.half_len)⟩,
       ⟨(if n.x ≥ 0 then c.center.x + c.half_len
          else c.center.x - c.half_len),
        (if n.y ≥ 0 then c.center.y + c.half_len
          else c.center.y - c.half_len),
        (if n.z ≥ 0 then c.center.z + c.half_len
          else c.center.z - c.half_len)⟩) := by
  simp only [BCube.pn_pair_from_normal]
  split_ifs <;> rfl

/-- Claim C6 (counterexample): `extend` is unconditional — extending a
cube with a box it already fully contains still doubles the half-length
and moves the center, so neither field is left unchanged. -/
theorem extend_contained_box_changes_cube :
    (⟨⟨0, 0, 0⟩, 2⟩ : BCube).containsBox ⟨⟨-1, -1, -1⟩, ⟨1, 1, 1⟩⟩ = true ∧
    ((⟨⟨0, 0, 0⟩, 2⟩ : BCube).extend
        ⟨⟨-1, -1, -1⟩, ⟨1, 1, 1⟩⟩).half_len ≠
      (⟨⟨0, 0, 0⟩, 2⟩ : BCube).half_len ∧
    ((⟨⟨0, 0, 0⟩, 2⟩ : BCube).extend
        ⟨⟨-1, -1, -1⟩, ⟨1, 1, 1⟩⟩).center ≠
      (⟨⟨0, 0, 0⟩, 2⟩ : BCube).center := by
  refine ⟨?_, ?_, ?_⟩
  · norm_num [BCube.containsBox, BBox.corners, BCube.contains]
  · norm_num [BCube.extend]
  · norm_num [BCube.extend, BCube.move_center, BBox.bcube_sides]

/-- Claim C6 (amended): extending a cube with a box it already fully
contains does NOT leave the cube unchanged — it doubles the half-length
(and recenters to a corner) — but the resulting cube still fully
contains the box. -/
theorem extend_contained_box_doubles_still_contains (c : BCube) (b : BBox)
    (hh : 0 < c.half_len) (hb : c.containsBox b = true) :
    (c.extend b).half_len = 2 * c.half_len ∧
    (c.extend b).containsBox b = true := by
  refine ⟨mul_comm c.half_len 2, ?_⟩
  simp only [BCube.containsBox, BBox.corners, List.all_cons, List.all_nil,
    Bool.and_eq_true, and_true] at hb ⊢
  obtain ⟨h1, h2, h3, h4, h5, h6, h7, h8⟩ := hb
  exact ⟨extend_keeps_point c b _ hh h1, extend_keeps_point c b _ hh h2,
    extend_keeps_point c b _ hh h3, extend_keeps_point c b _ hh h4,
    extend_keeps_point c b _ hh h5, extend_keeps_point c b _ hh h6,
    extend_keeps_point c b _ hh h7, extend_keeps_point c b _ hh h8⟩

/-- Witness for the amended claim C6 at a concrete cube and contained
box. -/
theorem extend_contained_box_doubles_still_contains_witness :
    ((⟨⟨0, 0, 0⟩, 2⟩ : BCube).extend
        ⟨⟨-1, -1, -1⟩, ⟨1, 1, 1⟩⟩).half_len = 2 * 2 ∧
    ((⟨⟨0, 0, 0⟩, 2⟩ : BCube).extend
        ⟨⟨-1, -1, -1⟩, ⟨1, 1, 1⟩⟩).containsBox
      ⟨⟨-1, -1, -1⟩, ⟨1, 1, 1⟩⟩ = true :=
  extend_contained_box_doubles_still_contains ⟨⟨0, 0, 0⟩, 2⟩
    ⟨⟨-1, -1, -1⟩, ⟨1, 1, 1⟩⟩ (by norm_num)
    (by norm_num [BCube.containsBox, BBox.corners, BCube.contains])

/-- Claim C10: the empty sentinel cube has half-length -1; any cube
with negative half-length contains no point at all, and extending it
keeps the half-length negative (extend doubles the negative sentinel
rather than initializing the cube). -/
theorem sentinel_cube_contains_false_extend_negative (c : BCube)
    (p : Vec3 ℚ) (b : BBox) (hh : c.half_len < 0) :
    BCube.empty.half_len = -1 ∧ c.contains p = false ∧
    (c.extend b).half_len < 0 := by
  refine ⟨rfl, ?_, ?_⟩
  · rw [← Bool.not_eq_true, contains_eq_true_iff]
    rintro ⟨h1, h2, -⟩
    linarith
  · simp only [BCube.extend]
    linarith

/-- Witness for claim C10 at the sentinel cube itself. -/
theorem sentinel_cube_witness :
    BCube.empty.half_len = -1 ∧
    BCube.empty.contains ⟨0, 0, 0⟩ = false ∧
    (BCube.empty.extend ⟨⟨0, 0, 0⟩, ⟨1, 1, 1⟩⟩).half_len < 0 :=
  sentinel_cube_contains_false_extend_negative BCube.empty ⟨0, 0, 0⟩
    ⟨⟨0, 0, 0⟩, ⟨1, 1, 1⟩⟩ (by norm_num [BCube.empty])

/-- Unfolding lemma: the magnitude of an explicitly given vector. -/
lemma mag_mk (a b c : ℝ) :
    (⟨a, b, c⟩ : Vec3 ℝ).mag = Real.sqrt (a * a + b * b + c * c) := rfl

/-- Multiplying the identity by a translation matrix yields that
translation matrix. -/
lemma identity_translate_eq (x y z : ℝ) :
    Mat4.identity.translate x y z =
      ⟨1, 0, 0, 0, 0, 1, 0, 0, 0, 0, 1, 0, x, y, z, 1⟩ := by
  norm_num [Mat4.translate, Mat4.matrix, Mat4.mul, Mat4.identity]

/-- A unit-magnitude vector has unit sum of squared components. -/
lemma sum_sq_eq_one_of_mag_one (v : Vec3 ℝ) (h : v.mag = 1) :
    v.x * v.x + v.y * v.y + v.z * v.z = 1 := by
  have h0 : (0 : ℝ) ≤ v.x * v.x + v.y * v.y + v.z * v.z :=
    add_nonneg (add_nonneg (mul_self_nonneg v.x) (mul_self_nonneg v.y))
      (mul_self_nonneg v.z)
  have h2 := Real.sq_sqrt h0
  rw [show Real.sqrt (v.x * v.x + v.y * v.y + v.z * v.z) = v.mag from rfl,
    h] at h2
  simpa using h2.symm

/-- Claim C7: when the matrix's extracted translation vector is zero,
the plane transform short-circuits — the offset is returned unchanged
and the facing is the direction-transformed normal. -/
theorem mulPlane_zero_translation_offset_unchanged (m : Mat4) (p : Plane)
    (h : m.translation = Vec3.zero) :
    (m.mulPlane p).offset = p.offset ∧
    (m.mulPlane p).facing = p.facing.transform_dir m := by
  simp only [Mat4.mulPlane]
  rw [if_pos h]
  exact ⟨rfl, rfl⟩

/-- Witness for claim C7 at the identity matrix and a concrete plane. -/
theorem mulPlane_zero_translation_witness :
    (Mat4.identity.mulPlane ⟨⟨1, 0, 0⟩, 5⟩).offset = (5 : ℝ) ∧
    (Mat4.identity.mulPlane ⟨⟨1, 0, 0⟩, 5⟩).facing =
      Vec3.transform_dir ⟨1, 0, 0⟩ Mat4.identity :=
  mulPlane_zero_translation_offset_unchanged Mat4.identity ⟨⟨1, 0, 0⟩, 5⟩ rfl

/-- Claim C9: transforming a frustum transforms only its center (as a
position); radius, both field-of-view angles and both rotation angles
pass through unchanged. -/
theorem mulFrustum_transforms_only_center (m : Mat4) (f : Frustum) :
    (m.mulFrustum f).center = m.mulVec3 f.center ∧
    (m.mulFrustum f).radius = f.radius ∧
    (m.mulFrustum f).wfov = f.wfov ∧
    (m.mulFrustum f).hfov = f.hfov ∧
    (m.mulFrustum f).xrot = f.xrot ∧
    (m.mulFrustum f).yrot = f.yrot :=
  ⟨rfl, rfl, rfl, rfl, rfl, rfl⟩

/-- Claim C8: transforming a plane with unit normal by a pure
translation of distance d > 0 along its own normal adds exactly d to
the offset (angle 0, b = 1, cos 0 = 1). -/
theorem mulPlane_translate_along_normal_offset (p : Plane) (d : ℝ)
    (hn : p.facing.mag = 1) (hd : 0 < d) :
    ((Mat4.identity.translate (d * p.facing.x) (d * p.facing.y)
        (d * p.facing.z)).mulPlane p).offset = p.offset + d := by
  obtain ⟨⟨nx, ny, nz⟩, off⟩ := p
  have hs : nx * nx + ny * ny + nz * nz = 1 :=
    sum_sq_eq_one_of_mag_one ⟨nx, ny, nz⟩ hn
  rw [identity_translate_eq]
  simp only [Mat4.mulPlane, Mat4.translation]
  have ht : (⟨d * nx, d * ny, d * nz⟩ : Vec3 ℝ) ≠ Vec3.zero := by
    intro hEq
    simp only [Vec3.zero, Vec3.mk.injEq] at hEq
    obtain ⟨e1, e2, e3⟩ := hEq
    have hx := (mul_eq_zero.mp e1).resolve_left hd.ne'
    have hy := (mul_eq_zero.mp e2).resolve_left hd.ne'
    have hz := (mul_eq_zero.mp e3).resolve_left hd.ne'
    rw [hx, hy, hz] at hs
    norm_num at hs
  rw [if_neg ht]
  have hfac :
      Vec3.transform_dir ⟨nx, ny, nz⟩
        (⟨1, 0, 0, 0, 0, 1, 0, 0, 0, 0, 1, 0, d * nx, d * ny, d * nz, 1⟩ :
          Mat4) = ⟨nx, ny, nz⟩ := by
    simp [Vec3.transform_dir]
  rw [hfac]
  have hmagt : (⟨d * nx, d * ny, d * nz⟩ : Vec3 ℝ).mag = d := by
    rw [mag_mk]
    rw [show d * nx * (d * nx) + d * ny * (d * ny) + d * nz * (d * nz)
        = d ^ 2 * (nx * nx + ny * ny + nz * nz) from by ring, hs, mul_one,
      Real.sqrt_sq hd.le]
  have hdot : Vec3.dot ⟨nx, ny, nz⟩ ⟨d * nx, d * ny, d * nz⟩ = d := by
    simp only [Vec3.dot]
    linear_combination d * hs
  have hangle :
      Vec3.angle ⟨nx, ny, nz⟩ ⟨d * nx, d * ny, d * nz⟩ = 0 := by
    unfold Vec3.angle
    rw [hdot, hmagt, hn, one_mul, div_self hd.ne']
    exact Real.arccos_one
  rw [hangle, abs_zero]
  have hred : reduceFullCircle 0 = 0 := by
    unfold reduceFullCircle
    rw [if_pos (by positivity : (0 : ℝ) ≤ 2 * Real.pi)]
  have hfold : foldQuadrant 0 = (0, 1) := by
    unfold foldQuadrant
    rw [if_neg (not_lt.mpr (by positivity : (0 : ℝ) ≤ Real.pi / 2))]
  rw [hred, hfold, hmagt]
  rw [if_neg (not_le.mpr (by positivity : (0 : ℝ) < Real.pi / 2))]
  simp [Real.cos_zero]

/-- Witness for claim C8 at a concrete plane and distance. -/
theorem mulPlane_translate_along_normal_witness :
    ((Mat4.identity.translate (3 * (1 : ℝ)) (3 * (0 : ℝ)) (3 * (0 : ℝ))).mulPlane
        ⟨⟨1, 0, 0⟩, 2⟩).offset = (2 : ℝ) + 3 :=
  mulPlane_translate_along_normal_offset ⟨⟨1, 0, 0⟩, 2⟩ 3
    (by rw [mag_mk]; norm_num [Real.sqrt_one]) (by norm_num)
